import Mathlib

/-!
Verification development for the library-registry search-query engine
(`util/search.py` and `library_registry/util/search.py`).

Strings are embedded as `List Char`.  Python's `str.split()` (split on runs
of whitespace, dropping empties) and `str.split(' ')` (split at every single
space, keeping empties) are modelled separately, since the source uses both.
-/

namespace LibSearch

abbrev Str := List Char

/-- Python `str.lower()` (ASCII case folding suffices for the data involved). -/
def lowerStr (s : Str) : Str := s.map Char.toLower

/-- Helper for `pySplit`: accumulates the current word (reversed) while
scanning.  Mirrors the left-to-right scan of Python `str.split()`. -/
def pySplitGo : Str → Str → List Str
  | [], [] => []
  | [], acc => [acc.reverse]
  | c :: rest, acc =>
    if c.isWhitespace then
      if acc = [] then pySplitGo rest []
      else acc.reverse :: pySplitGo rest []
    else pySplitGo rest (c :: acc)

/-- Python `str.split()` with no argument: words separated by runs of
whitespace, no empty words, leading/trailing whitespace ignored. -/
def pySplit (s : Str) : List Str := pySplitGo s []

/-- Python `str.split(' ')`: split at every single space character, keeping
empty pieces. -/
def pySplitSpace : Str → List Str
  | [] => [[]]
  | c :: rest =>
    if c = ' ' then [] :: pySplitSpace rest
    else
      match pySplitSpace rest with
      | w :: ws => (c :: w) :: ws
      | [] => [[c]]

/-- Python `' '.join(ws)`: the pieces joined with single spaces. -/
def joinSpace : List Str → Str
  | [] => []
  | [w] => w
  | w :: ws => w ++ ' ' :: joinSpace ws

/-- Python `' '.join(s.strip().split())`, the value normalization performed by
`LSToken.__init__` (util/search.py line 66): strip leading/trailing
whitespace and collapse internal whitespace runs to single spaces. -/
def normalizeTokenString (s : Str) : Str := joinSpace (pySplit s)

/-- The token types of `LSToken` (util/search.py lines 43-59).  All members of
the enumeration are valid token types (`VALID_TOKEN_TYPES` lists all seven),
so the validity check in `LSToken.__init__` is the identity here; `None` is
represented by `Option.none` at the use sites. -/
inductive LSTokenType where
  | postcode
  | state_abbr
  | state_name
  | county_name
  | city_name
  | library_keyword
  | library_name
deriving DecidableEq

/-- `LSToken` (util/search.py lines 29-87): a value (string of one or more
words) and an optional type. -/
structure LSToken where
  value : Str
  type : Option LSTokenType
deriving DecidableEq

/-- `LSToken.__init__` (util/search.py lines 62-67): normalizes the value's
whitespace; a `token_type` not in `VALID_TOKEN_TYPES` becomes `None`, which
the `Option LSTokenType` argument models directly. -/
def mkLSToken (s : Str) (ty : Option LSTokenType) : LSToken :=
  ⟨normalizeTokenString s, ty⟩

/-- `LSToken.is_multiword` (util/search.py lines 81-83). -/
def isMultiword (t : LSToken) : Bool := ' ' ∈ t.value

/-- `LSTokenSequence.all_classified` (util/search.py lines 271-273). -/
def all_classified (tokens : List LSToken) : Bool :=
  tokens.all fun t => t.type.isSome

/-- `LSTokenSequence.unclassified_count` (util/search.py lines 275-277). -/
def unclassified_count (tokens : List LSToken) : Nat :=
  (tokens.filter fun t => t.type = none).length

/-- The loop body of `LSTokenSequence.longest_unclassified_run`
(util/search.py lines 284-288): `current_run = current_run + 1 if not
token.type else 0; max_run = max(current_run, max_run)`. -/
def runStep (p : Nat × Nat) (t : LSToken) : Nat × Nat :=
  let cur := if t.type = none then p.1 + 1 else 0
  (cur, max cur p.2)

/-- `LSTokenSequence.longest_unclassified_run` (util/search.py lines
279-288): 0 when everything is classified, otherwise the running-maximum
fold over the token list. -/
def longest_unclassified_run (tokens : List LSToken) : Nat :=
  if all_classified tokens then 0
  else (tokens.foldl runStep (0, 0)).2

/-! ## `LSTokenSequence.merge_multiword_tokens` (util/search.py lines 129-253)

The iterative loop with its `skip_next` counter is embedded as structural
recursion on the suffix of the token list that the loop index has reached:
skipping the `num_words - 1` tokens consumed by a merge corresponds to
recursing on the suffix with those tokens dropped. -/

/-- `' '.join([x.value for x in ts])`. -/
def joinValues (ts : List LSToken) : Str := joinSpace (ts.map LSToken.value)

/-- `len(x.split(' '))`, the word count used to filter the target list
(util/search.py line 193). -/
def wordCountSpace (s : Str) : Nat := (pySplitSpace s).length

/-- The lookahead loop of util/search.py lines 229-234: starting from
`run = 2`, count further consecutive unclassified tokens, stopping at the
first classified one. -/
def countLeadingNone (l : List LSToken) : Nat :=
  (l.takeWhile fun t => t.type = none).length

/-- The inner loop of util/search.py lines 239-247: `for num_words in
range(2, loop_local_max_words + 1)` with its `break` on the first compound
word found in `usable_targets` is embedded as the first match over the range
list (`range(k, kmax + 1)` is `List.range' k (kmax + 1 - k)`). -/
def firstMatchLen (usable : List Str) (ts : List LSToken) (k kmax : Nat) :
    Option Nat :=
  (List.range' k (kmax + 1 - k)).find? fun i => joinValues (ts.take i) ∈ usable

/-- The main token loop of `merge_multiword_tokens` (util/search.py lines
204-250), as recursion on the remaining suffix.  Guard conditions, the
(unreachable) not-enough-tokens-left branch, the lookahead run bound and the
first-matching-length search are transcribed one for one. -/
def mergeLoop (usable : List Str) (ty : LSTokenType) (maxWords : Nat) :
    List LSToken → List LSToken
  | [] => []
  | t :: rest =>
    -- token already classified / last token / next token already classified
    if t.type.isSome || rest.isEmpty ||
        (rest.head?.elim false fun u => u.type.isSome) then
      t :: mergeLoop usable ty maxWords rest
    -- `n_tokens_left < min_multiword_tokens`, with `n_tokens_left` the
    -- length of the remaining suffix (a dead branch, kept for fidelity)
    else if rest.length + 1 < 2 then t :: rest
    else
      -- the `num_words` bound is `loop_local_max_words` after both
      -- reassignments: `min(max_words, n_tokens_left)` capped by the
      -- lookahead run `2 + <count of further unclassified tokens in
      -- tokens[idx+2 : idx+loop_local_max_words]>`
      match firstMatchLen usable (t :: rest) 2
          (min (min maxWords (rest.length + 1))
            (2 + countLeadingNone
              (((t :: rest).drop 2).take (min maxWords (rest.length + 1) - 2))))
        with
      | some k =>
        mkLSToken (joinValues ((t :: rest).take k)) (some ty) ::
          mergeLoop usable ty maxWords (rest.drop (k - 1))
      | none => t :: mergeLoop usable ty maxWords rest
termination_by ts => ts.length
decreasing_by
  · simp
  · simp only [List.length_cons]
    have := List.length_drop (k - 1) rest
    omega
  · simp

/-- `LSTokenSequence.MAX_MULTIWORD_TOKEN_LEN` (util/search.py line 98). -/
def MAX_MULTIWORD_TOKEN_LEN : Nat := 5

/-- `LSTokenSequence.merge_multiword_tokens` (util/search.py lines 129-253):
early exits, the clamping of `max_words`, the narrowing of the target list to
word counts the unclassified runs can match, and the merge loop.  The Python
`set(...)` is used only for membership tests and an emptiness check, so a
filtered list stands in for it. -/
def merge_multiword_tokens (tokens : List LSToken) (target_list : List Str)
    (merged_token_type : LSTokenType) (max_words : Nat) : List LSToken :=
  -- Step 1: `if self.all_classified or self.longest_unclassified_run <= 1`
  if all_classified tokens || longest_unclassified_run tokens ≤ 1 then tokens
  -- Step 3: `usable_targets = set(x for x in target_list if
  --   len(x.split(' ')) <= self.longest_unclassified_run)`; return the
  -- tokens unchanged when it is empty
  else if (target_list.filter fun x =>
      wordCountSpace x ≤ longest_unclassified_run tokens).isEmpty then tokens
  else
    -- Steps 2, 4, 5: `max_words = min(max(max_words, min_multiword_tokens),
    -- max_multiword_tokens)` with `min_multiword_tokens = 2` and
    -- `max_multiword_tokens = min(longest_unclassified_run,
    -- MAX_MULTIWORD_TOKEN_LEN)`, then the token loop
    mergeLoop
      (target_list.filter fun x =>
        wordCountSpace x ≤ longest_unclassified_run tokens)
      merged_token_type
      (min (max max_words 2)
        (min (longest_unclassified_run tokens) MAX_MULTIWORD_TOKEN_LEN))
      tokens

/-! ## Specification-side characterization of the unclassified-run length -/

/-- `tokens` contains a contiguous run of `n` tokens whose type is `None`. -/
def IsNoneRun (tokens : List LSToken) (n : Nat) : Prop :=
  ∃ pre run post, tokens = pre ++ run ++ post ∧
    (∀ t ∈ run, t.type = none) ∧ run.length = n

/-- Clean recursive computation of the longest `None`-run, used as the bridge
between the source's fold and the `IsNoneRun` characterization.  `c` is the
length of the `None`-run immediately preceding the current position. -/
def maxRunAux (c : Nat) : List LSToken → Nat
  | [] => c
  | t :: rest => if t.type = none then maxRunAux (c + 1) rest
                 else max c (maxRunAux 0 rest)

/-! ## Specification-side greedy merge (claim C1, spec §4.2) -/

/-- Spec §4.2: a token is a candidate merge start only if it is itself
unclassified and the token immediately following it is also unclassified
(never the last token, never when the next token is already classified). -/
def specCandidateStart : List LSToken → Bool
  | t :: u :: _ => t.type = none && u.type = none
  | _ => false

/-- Spec §4.2 / claim C1: at a candidate start, try compound words of
increasing length (2, 3, ...) up to `width`; the first length whose
space-joined compound is present in the target set wins. -/
def specFirstLen (targets : List Str) (width : Nat) (ts : List LSToken) :
    Option Nat :=
  (List.range' 2 (width - 1)).find? fun k => joinValues (ts.take k) ∈ targets

/-- Spec §4.2 / claim C1: greedy left-to-right scan.  At each candidate start
the lengths tried are bounded by the effective scan width and additionally by
the local run of consecutive unclassified tokens from that position; on a
match the consumed tokens are replaced by one new token of the merged type
and the scan advances past them; otherwise the token is emitted unchanged
and the scan advances by one. -/
def specGreedyScan (targets : List Str) (ty : LSTokenType) (width : Nat) :
    List LSToken → List LSToken
  | [] => []
  | t :: rest =>
    if specCandidateStart (t :: rest) then
      match specFirstLen targets (min width (countLeadingNone (t :: rest)))
          (t :: rest) with
      | some k =>
        mkLSToken (joinValues ((t :: rest).take k)) (some ty) ::
          specGreedyScan targets ty width (rest.drop (k - 1))
      | none => t :: specGreedyScan targets ty width rest
    else t :: specGreedyScan targets ty width rest
termination_by ts => ts.length
decreasing_by
  · simp only [List.length_cons]
    have := List.length_drop (k - 1) rest
    omega
  · simp
  · simp

/-- Spec §4.2: effective scan width
`clamp(maxWords, 2, min(longestUnclassifiedRun, GLOBAL_MAX_MULTIWORD_LEN))`,
with the global constant documented as 5 in util/search.py line 98. -/
def spec_effective_scan_width (tokens : List LSToken) (maxWords : Nat) : Nat :=
  max 2 (min maxWords
    (min (longest_unclassified_run tokens) MAX_MULTIWORD_TOKEN_LEN))

/-- The merge algorithm exactly as claim C1 and spec §4.2 describe it: one
greedy left-to-right scan of the whole sequence at the effective scan
width. -/
def spec_greedy_merge (tokens : List LSToken) (targets : List Str)
    (ty : LSTokenType) (maxWords : Nat) : List LSToken :=
  specGreedyScan targets ty (spec_effective_scan_width tokens maxWords) tokens

/-! ## Frame shape of a merge (claim C4) -/

/-- Claim C4: the output of a merge arises from the input by passing tokens
through unchanged, except that disjoint contiguous runs of at least two
unclassified tokens may each be replaced by one token carrying the merged
type.  In particular a merge starts only at an unclassified token whose
immediate successor is also unclassified, and every already-classified token
survives unchanged in its original relative position. -/
inductive MergeShape (ty : LSTokenType) : List LSToken → List LSToken → Prop where
  | nil : MergeShape ty [] []
  | keep (t : LSToken) {l r : List LSToken} :
      MergeShape ty l r → MergeShape ty (t :: l) (t :: r)
  | merge (run : List LSToken) {rest r : List LSToken} (m : LSToken) :
      2 ≤ run.length → (∀ t ∈ run, t.type = none) → m.type = some ty →
      MergeShape ty rest r → MergeShape ty (run ++ rest) (m :: r)

/-! ## Well-formed token values (claims C1, C2) -/

/-- A word as produced by Python `str.split()`: non-empty and free of
whitespace. -/
def GoodWord (w : Str) : Prop := w ≠ [] ∧ ∀ c ∈ w, c.isWhitespace = false

def GoodWords (ws : List Str) : Prop := ∀ w ∈ ws, GoodWord w

/-- A token value as `LSToken.__init__` produces from a non-empty string:
non-empty and fixed by the whitespace normalization. -/
def WellFormedValue (v : Str) : Prop :=
  v ≠ [] ∧ normalizeTokenString v = v

/-- A single-word token value: no space characters (claim C1's sequences come
from whitespace tokenization, so each token value is one word). -/
abbrev SpaceFreeValue (v : Str) : Prop := ∀ c ∈ v, ¬c = ' '

/-! ## `LSSinglewordTokenClassifier` (claim C5) -/

/-- Modelled from the spec: the lookup tables `US_STATE_ABBREVIATIONS`,
`US_STATE_NAMES` and `LIBRARY_KEYWORDS` are imported by the search module
from `library_registry/constants.py`, which is not among the provided
sources; per spec §6 they are fixed reference data injected into the
classifiers, so the embedding takes them as parameters. -/
structure LSLexicons where
  us_state_abbreviations : List Str
  us_state_names : List Str
  library_keywords : List Str

/-- `SIMPLE_POSTCODE_RE.match` (library_registry/util/search.py line 80):
the anchored pattern `^(?:[0-9]{5}|[0-9]{9})$` holds exactly of strings of
exactly 5 or exactly 9 digit characters. -/
def simple_postcode_match (s : Str) : Bool :=
  (s.length = 5 || s.length = 9) && s.all Char.isDigit

/-- `LSSinglewordTokenClassifier.classify` (library_registry/util/search.py
lines 335-360), including the `work_to_do` short-circuit inherited from
`LSBaseTokenClassifier` (lines 322-330).  The in-place mutation of the deep
copy's tokens is embedded as `List.map` over the sequence. -/
def lssingleword_classify (L : LSLexicons) (tokens : List LSToken) :
    List LSToken :=
  if all_classified tokens then tokens
  else tokens.map fun t =>
    if t.type.isSome || isMultiword t then t
    else if simple_postcode_match t.value then ⟨t.value, some .postcode⟩
    else if t.value ∈ L.us_state_abbreviations then ⟨t.value, some .state_abbr⟩
    else if t.value ∈ L.us_state_names then ⟨t.value, some .state_name⟩
    else if t.value ∈ L.library_keywords then ⟨t.value, some .library_keyword⟩
    else t

/-- Claim C5's description of the per-token rule: an unclassified single-word
token receives the first matching type in the fixed order postcode (exactly 5
or exactly 9 digits), state abbreviation, state name, library keyword; other
tokens are untouched. -/
def spec_single_word_type (L : LSLexicons) (v : Str) : Option LSTokenType :=
  if v.all Char.isDigit && (v.length = 5 || v.length = 9) then some .postcode
  else if v ∈ L.us_state_abbreviations then some .state_abbr
  else if v ∈ L.us_state_names then some .state_name
  else if v ∈ L.library_keywords then some .library_keyword
  else none

/-- Claim C5's description of the whole pass over a sequence. -/
def spec_single_word_result (L : LSLexicons) (t : LSToken) : LSToken :=
  if t.type = none ∧ ¬isMultiword t = true then
    match spec_single_word_type L t.value with
    | some ty => ⟨t.value, some ty⟩
    | none => t
  else t

/-! ## `LSQuery` construction (claims C3, C6, C7, C8)

Embedded from `library_registry/util/search.py`. -/

/-- Raw constructor input: `isinstance(x, str)` distinguishes strings from
every other value (`None`, numeric, list, dict, tuple, ...), and the code
treats all non-strings identically, so they are embedded as one
constructor. -/
inductive PyInput where
  | pstr (s : Str)
  | nonString
deriving DecidableEq

/-- The uncaught exception a construction can raise. -/
inductive PyErr where
  | indexError
deriving DecidableEq

/-- Modelled from the spec: `library_registry/util/geo.py` (the `Location`
class and `InvalidLocationException`) is not among the provided sources.
Per spec §4.4 a supplied location either is already (or parses to) a
validated coordinate pair, or parsing raises `InvalidLocationException`;
the embedding records only the outcome the constructor can observe. -/
inductive LocationInput where
  | absent
  | valid
  | unparseable
deriving DecidableEq

/-- A validated location, kept abstract (its coordinates play no role in the
claims). -/
inductive LSLocation where
  | loc
deriving DecidableEq

/-- The location-handling block of `LSQuery.__init__`
(library_registry/util/search.py lines 638-644): a falsy/absent location
stays `None`, a validated one is kept, and `InvalidLocationException` from
parsing is caught and becomes `None`. -/
def parse_location : LocationInput → Option LSLocation
  | .absent => none
  | .valid => some .loc
  | .unparseable => none

/-- `LSQuery.MAX_SEARCH_STRING_LEN` (line 614). -/
def MAX_SEARCH_STRING_LEN : Nat := 128

/-- The `COMMON_MISTAKES` correction step (lines 850-855): every token whose
lowercase form equals `"libary"` is replaced by `"library"`. -/
def fixCommonMistakes (ws : List Str) : List Str :=
  ws.map fun w =>
    if lowerStr w = "libary".toList then "library".toList else w

/-- `LSQuery._normalize_search_string` (library_registry/util/search.py lines
818-857; textually identical in util/search.py lines 646-685).  The `Except`
result models the uncaught `IndexError` that `search_string_tokens[-1]`
raises when that list is empty. -/
def normalize_search_string : PyInput → Except PyErr Str
  | .nonString => .ok []
  | .pstr s =>
    -- Step 0: `not raw_search_string or not isinstance(...) or == ''`
    if s = [] then .ok []
    else
      -- Step 1: truncate to 3x max length
      let long_raw := s.take (MAX_SEARCH_STRING_LEN * 3)
      -- Step 2: normalize whitespace, tokenize
      let long_raw2 := joinSpace (pySplit long_raw)
      let long_raw_tokens := pySplit long_raw2
      -- Step 3: cut down to the actual maximum length
      let search_string := long_raw2.take MAX_SEARCH_STRING_LEN
      let search_string_tokens := pySplit search_string
      -- Step 4: `search_string_tokens[-1]` raises IndexError on an empty list
      match search_string_tokens.getLast? with
      | none => .error .indexError
      | some lastTok =>
        let kept :=
          if lastTok ≠ long_raw_tokens.getD (search_string_tokens.length - 1) []
          then search_string_tokens.dropLast
          else search_string_tokens
        -- Step 5: fix common mistakes, rejoin
        .ok (joinSpace (fixCommonMistakes kept))

/-- `string.punctuation`: the 32 ASCII punctuation characters (codes 33-47,
58-64, 91-96, 123-126), written by character code. -/
def pythonPunctuation : Str :=
  (List.range' 33 15 ++ List.range' 58 7 ++ List.range' 91 6 ++
    List.range' 123 4).map Char.ofNat

/-- Line 635: `normalized_string.translate(str.maketrans('', '',
string.punctuation)).lower()`. -/
def clean_search_string (s : Str) : Str :=
  lowerStr (s.filter fun c => c ∉ pythonPunctuation)

/-- `LSQuery._classify_tokens_by_pattern` (library_registry/util/search.py
lines 894-914): despite the docstring's list of patterns, the body is a stub
returning its input unchanged. -/
def classify_tokens_by_pattern (tokens : List LSToken) : List LSToken := tokens

/-- `LSQuery._tokenize` (library_registry/util/search.py lines 859-879).
The source initializes `tokens = []` and then, in the multi-word branch,
calls `cls._classify_tokens_by_pattern(tokens)` on that still-empty list
rather than on `words`; the embedding reproduces this faithfully. -/
def ls_tokenize (normalized_search_string : Str) : List LSToken :=
  let words := (pySplit normalized_search_string).map fun w => mkLSToken w none
  if words.length = 1 || words.all (fun w => w.type.isSome) then words
  else classify_tokens_by_pattern []

/-- The search-type constants of `LSQuery` (lines 622-625). -/
inductive LSSearchType where
  | geotarget_single
  | geotarget_multiple
  | libtarget
deriving DecidableEq

/-- `LSQuery._search_type` (library_registry/util/search.py lines 730-742;
identical in util/search.py lines 558-570): despite the docstring's decision
rules, the body is `search_type = None; return search_type`. -/
def ls_search_type (tokens : List LSToken) (location : Option LSLocation) :
    Option LSSearchType :=
  let _ := tokens
  let _ := location
  none

/-- The attributes `LSQuery.__init__` stores (lines 628-645). -/
structure LSQuery where
  raw_string : Str
  normalized_string : Str
  cleaned_string : Str
  tokens : List LSToken
  location : Option LSLocation
  search_type : Option LSSearchType
deriving DecidableEq

/-- `LSQuery.__init__` (library_registry/util/search.py lines 628-645). -/
def ls_query_init (raw : PyInput) (loc : LocationInput) :
    Except PyErr LSQuery :=
  let raw_string := match raw with
    | .pstr s => s.take (MAX_SEARCH_STRING_LEN * 3)
    | .nonString => []
  match normalize_search_string raw with
  | .error e => .error e
  | .ok normalized =>
    let cleaned := clean_search_string normalized
    let tokens := ls_tokenize cleaned
    let location := parse_location loc
    .ok ⟨raw_string, normalized, cleaned, tokens, location,
         ls_search_type tokens location⟩

/-- `LSQuery.__bool__` (lines 647-648): `False if self.raw_string == ''
else True`. -/
def ls_query_bool (q : LSQuery) : Bool :=
  if q.raw_string = [] then false else true

/-! ## `LSQuery.fuzzy_match_clause` (claim C9)

The method (library_registry/util/search.py lines 801-815; identical in
util/search.py lines 629-643) composes an SQLAlchemy expression from the SQL
functions `length`, `lower`, `levenshtein`, two comparisons, `ilike`, `&`
and `or_`.  The expression is embedded as a small tree type built exactly as
the source composes it, together with an evaluator giving the SQL
semantics. -/

inductive SqlStrExpr where
  | sfield
  | svalue
  | slower (e : SqlStrExpr)

inductive SqlNumExpr where
  | slength (e : SqlStrExpr)
  | slev (a b : SqlStrExpr)
  | slit (n : Nat)

inductive SqlBoolExpr where
  | sge (a b : SqlNumExpr)
  | sle (a b : SqlNumExpr)
  | sand (a b : SqlBoolExpr)
  | sor (a b : SqlBoolExpr)
  | silike (a b : SqlStrExpr)

/-- `LSQuery.fuzzy_match_clause`, line for line. -/
def fuzzy_match_clause : SqlBoolExpr :=
  let is_long := SqlBoolExpr.sge (.slength .sfield) (.slit 6)
  let close_enough :=
    SqlBoolExpr.sle (.slev (.slower .sfield) .svalue) (.slit 2)
  let long_value_is_approximate_match := SqlBoolExpr.sand is_long close_enough
  let exact_match := SqlBoolExpr.silike .sfield .svalue
  SqlBoolExpr.sor long_value_is_approximate_match exact_match

def evalSqlStr (field value : Str) : SqlStrExpr → Str
  | .sfield => field
  | .svalue => value
  | .slower e => lowerStr (evalSqlStr field value e)

/-- Modelled from the spec: the SQL functions are evaluated by the external
datastore (PostgreSQL), not by repository code.  `length` is the character
count, `levenshtein` is unit-cost edit distance (Mathlib's `levenshtein`
with `Levenshtein.defaultCost`), and `ILIKE` with a pattern free of wildcard
metacharacters is case-insensitive equality ("case-insensitive exact match",
spec §4.4) — search tokens are punctuation-stripped, hence contain no `%`
or `_`. -/
def evalSqlNum (field value : Str) : SqlNumExpr → Nat
  | .slength e => (evalSqlStr field value e).length
  | .slev a b =>
    levenshtein Levenshtein.defaultCost (evalSqlStr field value a)
      (evalSqlStr field value b)
  | .slit n => n

def evalSqlBool (field value : Str) : SqlBoolExpr → Bool
  | .sge a b => evalSqlNum field value a ≥ evalSqlNum field value b
  | .sle a b => evalSqlNum field value a ≤ evalSqlNum field value b
  | .sand a b => evalSqlBool field value a && evalSqlBool field value b
  | .sor a b => evalSqlBool field value a || evalSqlBool field value b
  | .silike a b =>
    lowerStr (evalSqlStr field value a) = lowerStr (evalSqlStr field value b)

theorem maxRunAux_ge (l : List LSToken) : ∀ c, c ≤ maxRunAux c l := by
  induction l with
  | nil => intro c; exact Nat.le_refl c
  | cons t rest ih =>
    intro c
    by_cases h : t.type = none
    · simpa [maxRunAux, h] using Nat.le_trans (Nat.le_succ c) (ih (c + 1))
    · simp [maxRunAux, h]

theorem foldl_runStep_eq (l : List LSToken) :
    ∀ c m, c ≤ m → (l.foldl runStep (c, m)).2 = max m (maxRunAux c l) := by
  induction l with
  | nil => intro c m h; simp [maxRunAux, Nat.max_eq_left h]
  | cons t rest ih =>
    intro c m h
    by_cases ht : t.type = none
    · have step : runStep (c, m) t = (c + 1, max (c + 1) m) := by
        simp [runStep, ht]
      have hc : c + 1 ≤ max (c + 1) m := Nat.le_max_left _ _
      have hX : c + 1 ≤ maxRunAux (c + 1) rest := maxRunAux_ge rest (c + 1)
      simp only [List.foldl_cons, step, ih (c + 1) (max (c + 1) m) hc,
        maxRunAux, ht, if_true]
      omega
    · have step : runStep (c, m) t = (0, m) := by
        simp [runStep, ht, Nat.max_eq_right (Nat.zero_le m)]
      simp only [List.foldl_cons, step, ih 0 m (Nat.zero_le m),
        maxRunAux, ht, if_false]
      omega

theorem maxRunAux_of_all_classified (l : List LSToken)
    (h : all_classified l = true) : ∀ c, maxRunAux c l = c := by
  induction l with
  | nil => intro c; rfl
  | cons t rest ih =>
    intro c
    simp only [all_classified, List.all_cons, Bool.and_eq_true] at h
    have ht : ¬t.type = none := by
      cases htt : t.type with
      | none => rw [htt] at h; simp at h
      | some _ => simp
    have := ih (by simpa [all_classified] using h.2)
    simp [maxRunAux, ht, this 0, Nat.max_eq_left (Nat.zero_le c)]

theorem longest_run_eq_maxRunAux (l : List LSToken) :
    longest_unclassified_run l = maxRunAux 0 l := by
  unfold longest_unclassified_run
  by_cases h : all_classified l = true
  · simp [h, maxRunAux_of_all_classified l h 0]
  · simp only [h, if_false, Bool.false_eq_true]
    simpa using foldl_runStep_eq l 0 0 (Nat.le_refl 0)

theorem isNoneRun_cons {l : List LSToken} {n : Nat} (t : LSToken)
    (h : IsNoneRun l n) : IsNoneRun (t :: l) n := by
  obtain ⟨pre, run, post, h1, h2, h3⟩ := h
  exact ⟨t :: pre, run, post, by simp [h1], h2, h3⟩

theorem isNoneRun_leading (l : List LSToken) :
    IsNoneRun l (countLeadingNone l) := by
  refine ⟨[], l.takeWhile fun t => t.type = none,
    l.dropWhile fun t => t.type = none, by simp, ?_, rfl⟩
  intro t ht
  simpa using List.mem_takeWhile_imp ht

theorem maxRunAux_characterize (l : List LSToken) :
    ∀ c, maxRunAux c l = c + countLeadingNone l ∨
      IsNoneRun l (maxRunAux c l) := by
  induction l with
  | nil => intro c; left; simp [maxRunAux, countLeadingNone]
  | cons t rest ih =>
    intro c
    by_cases ht : t.type = none
    · have hcl : countLeadingNone (t :: rest) = countLeadingNone rest + 1 := by
        simp [countLeadingNone, List.takeWhile_cons, ht]
      have hmr : maxRunAux c (t :: rest) = maxRunAux (c + 1) rest := by
        simp [maxRunAux, ht]
      rcases ih (c + 1) with h | h
      · left; rw [hmr, h, hcl]; omega
      · right; rw [hmr]; exact isNoneRun_cons t h
    · have hrest : IsNoneRun rest (maxRunAux 0 rest) := by
        rcases ih 0 with h | h
        · rw [h, Nat.zero_add]; exact isNoneRun_leading rest
        · exact h
      have hmr : maxRunAux c (t :: rest) = max c (maxRunAux 0 rest) := by
        simp [maxRunAux, ht]
      rcases Nat.le_total c (maxRunAux 0 rest) with hle | hle
      · right; rw [hmr, Nat.max_eq_right hle]; exact isNoneRun_cons t hrest
      · left
        have hcl : countLeadingNone (t :: rest) = 0 := by
          simp [countLeadingNone, List.takeWhile_cons, ht]
        rw [hmr, Nat.max_eq_left hle, hcl]
        omega

theorem maxRunAux_append_run (run : List LSToken)
    (hrun : ∀ t ∈ run, t.type = none) :
    ∀ c post, maxRunAux c (run ++ post) = maxRunAux (c + run.length) post := by
  induction run with
  | nil => intro c post; simp
  | cons r rs ih =>
    intro c post
    have hr : r.type = none := hrun r (by simp)
    have htail := ih (fun t ht => hrun t (by simp [ht])) (c + 1) post
    have harith : c + 1 + rs.length = c + (rs.length + 1) := by omega
    simp only [List.cons_append, maxRunAux, hr, if_true, List.length_cons]
    exact htail.trans (by rw [harith])

theorem isNoneRun_le_maxRunAux {l : List LSToken} {n : Nat}
    (h : IsNoneRun l n) : ∀ c, n ≤ maxRunAux c l := by
  obtain ⟨pre, run, post, rfl, hrun, rfl⟩ := h
  induction pre with
  | nil =>
    intro c
    have := maxRunAux_append_run run hrun c post
    simp only [List.nil_append, this]
    exact Nat.le_trans (by omega) (maxRunAux_ge post (c + run.length))
  | cons p ps ih =>
    intro c
    by_cases hp : p.type = none
    · simpa [maxRunAux, hp] using ih (c + 1)
    · simp only [List.cons_append, maxRunAux, hp, if_false]
      exact Nat.le_trans (ih 0) (Nat.le_max_right _ _)

theorem maxRunAux_le (l : List LSToken) : ∀ c, maxRunAux c l ≤ c + l.length := by
  induction l with
  | nil => intro c; simp [maxRunAux]
  | cons t rest ih =>
    intro c
    by_cases ht : t.type = none
    · have := ih (c + 1)
      simp only [maxRunAux, ht, if_true, List.length_cons]
      omega
    · have := ih 0
      simp only [maxRunAux, ht, if_false, List.length_cons]
      omega

theorem all_classified_iff_no_none (l : List LSToken) :
    all_classified l = true ↔ ∀ t ∈ l, ¬t.type = none := by
  simp only [all_classified, List.all_eq_true]
  constructor
  · intro h t ht
    have := h t ht
    cases htt : t.type with
    | none => rw [htt] at this; simp at this
    | some _ => simp
  · intro h t ht
    have := h t ht
    cases htt : t.type with
    | none => exact absurd htt this
    | some _ => simp

theorem all_classified_iff_count_zero (l : List LSToken) :
    all_classified l = true ↔ unclassified_count l = 0 := by
  rw [all_classified_iff_no_none]
  simp [unclassified_count, List.length_eq_zero, List.filter_eq_nil_iff]

theorem all_classified_iff_longest_zero (l : List LSToken) :
    all_classified l = true ↔ longest_unclassified_run l = 0 := by
  constructor
  · intro h
    rw [longest_run_eq_maxRunAux, maxRunAux_of_all_classified l h 0]
  · intro h
    by_contra hnot
    obtain ⟨t, htl, htn⟩ : ∃ t ∈ l, t.type = none := by
      rcases (not_iff_not.mpr (all_classified_iff_no_none l)).mp hnot
        |> not_forall.mp with ⟨t, ht⟩
      rcases Classical.not_imp.mp ht with ⟨h1, h2⟩
      exact ⟨t, h1, not_not.mp h2⟩
    obtain ⟨s, u, rfl⟩ := List.append_of_mem htl
    have hone : IsNoneRun (s ++ t :: u) 1 :=
      ⟨s, [t], u, by simp, by simpa using htn, rfl⟩
    have := isNoneRun_le_maxRunAux hone 0
    rw [← longest_run_eq_maxRunAux, h] at this
    omega

/-- C10: the three derived sequence properties agree — `all_classified`
holds iff `unclassified_count` is 0, iff `longest_unclassified_run` is 0;
and `longest_unclassified_run` is exactly the length of the longest
contiguous run of tokens whose type is `None` (it is attained by some run,
and no `None`-run is longer), so it never exceeds the number of tokens. -/
theorem c10_derived_properties_agree (tokens : List LSToken) :
    (all_classified tokens = true ↔ unclassified_count tokens = 0) ∧
    (all_classified tokens = true ↔ longest_unclassified_run tokens = 0) ∧
    IsNoneRun tokens (longest_unclassified_run tokens) ∧
    (∀ n, IsNoneRun tokens n → n ≤ longest_unclassified_run tokens) ∧
    longest_unclassified_run tokens ≤ tokens.length := by
  refine ⟨all_classified_iff_count_zero tokens,
          all_classified_iff_longest_zero tokens, ?_, ?_, ?_⟩
  · rw [longest_run_eq_maxRunAux]
    rcases maxRunAux_characterize tokens 0 with h | h
    · rw [h, Nat.zero_add]; exact isNoneRun_leading tokens
    · exact h
  · intro n hn
    rw [longest_run_eq_maxRunAux]
    exact isNoneRun_le_maxRunAux hn 0
  · rw [longest_run_eq_maxRunAux]
    simpa using maxRunAux_le tokens 0

/-- Witness for C10: a concrete sequence with a `None`-run of length 2,
fed through the theorem's bound. -/
theorem c10_derived_properties_agree_witness :
    IsNoneRun [⟨['a'], some .city_name⟩, ⟨['b'], none⟩, ⟨['c'], none⟩,
               ⟨['d'], some .postcode⟩] 2 ∧
    2 ≤ longest_unclassified_run [⟨['a'], some .city_name⟩, ⟨['b'], none⟩,
               ⟨['c'], none⟩, ⟨['d'], some .postcode⟩] := by
  have hrun : IsNoneRun [⟨['a'], some .city_name⟩, ⟨['b'], none⟩,
      ⟨['c'], none⟩, ⟨['d'], some .postcode⟩] 2 :=
    ⟨[⟨['a'], some .city_name⟩], [⟨['b'], none⟩, ⟨['c'], none⟩],
     [⟨['d'], some .postcode⟩], rfl, by decide, rfl⟩
  exact ⟨hrun, (c10_derived_properties_agree _).2.2.2.1 2 hrun⟩

/-! ## Claim C4: frame property of the merge -/

theorem mergeShape_refl (ty : LSTokenType) (l : List LSToken) :
    MergeShape ty l l := by
  induction l with
  | nil => exact .nil
  | cons t rest ih => exact .keep t ih

theorem firstMatchLen_bounds {usable : List Str} {ts : List LSToken}
    {k kmax j : Nat} (h : firstMatchLen usable ts k kmax = some j) :
    k ≤ j ∧ j ≤ kmax ∧ joinValues (ts.take j) ∈ usable := by
  rw [firstMatchLen] at h
  have hmem := List.mem_of_find?_eq_some h
  have hp := List.find?_some h
  rw [List.mem_range'_1] at hmem
  refine ⟨hmem.1, by omega, by simpa using hp⟩

theorem take_all_none {l : List LSToken} {k : Nat}
    (h : k ≤ countLeadingNone l) : ∀ t ∈ l.take k, t.type = none := by
  induction l generalizing k with
  | nil => intro t ht; simp at ht
  | cons a l ih =>
    intro t ht
    match k with
    | 0 => simp at ht
    | k + 1 =>
      by_cases ha : a.type = none
      · have hcount : countLeadingNone (a :: l) = countLeadingNone l + 1 := by
          simp [countLeadingNone, List.takeWhile_cons, ha]
        rw [List.take_succ_cons] at ht
        rcases List.mem_cons.mp ht with rfl | htl
        · exact ha
        · exact ih (by omega) t htl
      · exfalso
        have hcount : countLeadingNone (a :: l) = 0 := by
          simp [countLeadingNone, List.takeWhile_cons, ha]
        omega

theorem countLeadingNone_take (k : Nat) (l : List LSToken) :
    countLeadingNone (l.take k) = min k (countLeadingNone l) := by
  induction l generalizing k with
  | nil => simp [countLeadingNone]
  | cons a l ih =>
    match k with
    | 0 => simp [countLeadingNone]
    | k + 1 =>
      by_cases ha : a.type = none
      · have h1 : countLeadingNone (a :: l) = countLeadingNone l + 1 := by
          simp [countLeadingNone, List.takeWhile_cons, ha]
        have h2 : countLeadingNone (a :: l.take k) =
            countLeadingNone (l.take k) + 1 := by
          simp [countLeadingNone, List.takeWhile_cons, ha]
        rw [List.take_succ_cons, h2, h1, ih k]
        omega
      · have h1 : countLeadingNone (a :: l) = 0 := by
          simp [countLeadingNone, List.takeWhile_cons, ha]
        have h2 : countLeadingNone (a :: l.take k) = 0 := by
          simp [countLeadingNone, List.takeWhile_cons, ha]
        rw [List.take_succ_cons, h2, h1]
        simp

theorem countLeadingNone_cons_cons {t u : LSToken} (l : List LSToken)
    (ht : t.type = none) (hu : u.type = none) :
    countLeadingNone (t :: u :: l) = 2 + countLeadingNone l := by
  simp only [countLeadingNone, List.takeWhile_cons, ht, hu]
  simp
  omega

theorem mergeLoop_shape (usable : List Str) (ty : LSTokenType) (maxW : Nat) :
    ∀ ts : List LSToken, MergeShape ty ts (mergeLoop usable ty maxW ts) := by
  have H : ∀ n (ts : List LSToken), ts.length ≤ n →
      MergeShape ty ts (mergeLoop usable ty maxW ts) := by
    intro n
    induction n with
    | zero =>
      intro ts h
      have : ts = [] := List.eq_nil_of_length_eq_zero (Nat.le_zero.mp h)
      subst this
      rw [mergeLoop]
      exact .nil
    | succ n ih =>
      intro ts hlen
      match ts with
      | [] => rw [mergeLoop]; exact .nil
      | [t] =>
        rw [mergeLoop, if_pos (by simp)]
        exact .keep t (by rw [mergeLoop]; exact .nil)
      | t :: u :: urest =>
        rw [mergeLoop]
        have hlen2 : urest.length + 2 ≤ n + 1 := by
          simpa using hlen
        rcases htt : t.type with _ | tv
        rotate_left
        · -- `t` classified: guard branch, keep the token
          rw [if_pos (by simp [htt])]
          exact .keep t (ih (u :: urest) (by simp; omega))
        rcases hut : u.type with _ | uv
        rotate_left
        · -- next token classified: guard branch, keep the token
          rw [if_pos (by simp [hut])]
          exact .keep t (ih (u :: urest) (by simp; omega))
        -- candidate start: `t` and `u` both unclassified
        rw [if_neg (by simp [htt, hut]), if_neg (by simp)]
        rcases hfm : firstMatchLen usable (t :: u :: urest) 2
            (min (min maxW ((u :: urest).length + 1))
              (2 + countLeadingNone
                (((t :: u :: urest).drop 2).take
                  (min maxW ((u :: urest).length + 1) - 2)))) with _ | k
        · exact .keep t (ih (u :: urest) (by simp; omega))
        · obtain ⟨hk2, hkmax, _⟩ := firstMatchLen_bounds hfm
          have hdrop2 : (t :: u :: urest).drop 2 = urest := rfl
          rw [hdrop2] at hkmax
          simp only [List.length_cons] at hkmax
          have hrunbound : k ≤ countLeadingNone (t :: u :: urest) := by
            have hcl := countLeadingNone_cons_cons urest htt hut
            have htake := countLeadingNone_take
              (min maxW (urest.length + 1 + 1) - 2) urest
            omega
          have hsplit : t :: u :: urest =
              (t :: u :: urest).take k ++ (t :: u :: urest).drop k :=
            (List.take_append_drop k (t :: u :: urest)).symm
          have hdropk : (t :: u :: urest).drop k = (u :: urest).drop (k - 1) := by
            obtain ⟨j, rfl⟩ : ∃ j, k = j + 2 := ⟨k - 2, by omega⟩
            rfl
          rw [hsplit]
          refine MergeShape.merge ((t :: u :: urest).take k) _ ?_ ?_ rfl ?_
          · rw [List.length_take]
            simp only [List.length_cons]
            omega
          · exact take_all_none hrunbound
          · rw [hdropk]
            refine ih ((u :: urest).drop (k - 1)) ?_
            have := List.length_drop (k - 1) (u :: urest)
            simp only [List.length_cons] at this ⊢
            omega
  intro ts
  exact H ts.length ts (Nat.le_refl _)

/-- C4: `merge_multiword_tokens` only merges runs of unclassified tokens — a
merge consumes a contiguous run of at least two tokens of type `None` (so it
starts at an unclassified token whose immediate successor is unclassified,
never at the last token, and never when the next token is already
classified), replaces it by a single token of the merged type, and every
other token — in particular every already-classified token — appears in the
result unchanged and in its original relative position. -/
theorem c4_merge_frame (tokens : List LSToken) (target_list : List Str)
    (ty : LSTokenType) (max_words : Nat) :
    MergeShape ty tokens
      (merge_multiword_tokens tokens target_list ty max_words) := by
  rw [merge_multiword_tokens]
  split
  · exact mergeShape_refl ty tokens
  · split
    · exact mergeShape_refl ty tokens
    · exact mergeLoop_shape _ ty _ tokens

/-! ## Claim C2: the merge never changes the space-joined concatenation -/

theorem pySplitGo_no_ws (w : Str) (hw : ∀ c ∈ w, c.isWhitespace = false) :
    ∀ s acc, pySplitGo (w ++ s) acc = pySplitGo s (w.reverse ++ acc) := by
  induction w with
  | nil => intro s acc; simp
  | cons c w ih =>
    intro s acc
    have hc : c.isWhitespace = false := hw c (by simp)
    have hw' : ∀ x ∈ w, x.isWhitespace = false := fun x hx => hw x (by simp [hx])
    show pySplitGo (c :: (w ++ s)) acc = _
    rw [pySplitGo]
    simp only [hc, Bool.false_eq_true, if_false]
    rw [ih hw' s (c :: acc)]
    simp

theorem pySplit_single_word (w : Str) (hw : GoodWord w) : pySplit w = [w] := by
  obtain ⟨hne, hchars⟩ := hw
  have hgo := pySplitGo_no_ws w hchars [] []
  rw [List.append_nil, List.append_nil] at hgo
  obtain ⟨a, as, hrev⟩ := List.exists_cons_of_ne_nil
    (fun h => hne (by simpa using congrArg List.reverse h) : w.reverse ≠ [])
  rw [pySplit, hgo, hrev, pySplitGo, ← hrev]
  · simp
  · simp

theorem pySplit_word_append (w : Str) (hw : GoodWord w) (s : Str) :
    pySplit (w ++ ' ' :: s) = w :: pySplit s := by
  obtain ⟨hne, hchars⟩ := hw
  have hrevne : ¬(w.reverse = []) := by
    intro h
    exact hne (by simpa using congrArg List.reverse h)
  rw [pySplit, pySplitGo_no_ws w hchars (' ' :: s) [], List.append_nil,
    pySplitGo, if_pos (by decide : (' ').isWhitespace = true),
    if_neg hrevne, List.reverse_reverse]
  rfl

theorem pySplit_joinSpace (ws : List Str) (h : GoodWords ws) :
    pySplit (joinSpace ws) = ws := by
  match ws with
  | [] => rfl
  | [w] =>
    rw [joinSpace]
    exact pySplit_single_word w (h w (by simp))
  | w :: x :: ws =>
    rw [show joinSpace (w :: x :: ws) = w ++ ' ' :: joinSpace (x :: ws) from
      rfl]
    rw [pySplit_word_append w (h w (by simp))]
    rw [pySplit_joinSpace (x :: ws)
      fun y hy => h y (by simp [List.mem_cons] at hy ⊢; tauto)]

theorem pySplitGo_goodWords : ∀ (s acc : Str),
    (∀ c ∈ acc, c.isWhitespace = false) → GoodWords (pySplitGo s acc) := by
  intro s
  induction s with
  | nil =>
    intro acc hacc
    match acc with
    | [] => intro w hw; simp [pySplitGo] at hw
    | a :: as =>
      intro w hw
      rw [pySplitGo] at hw
      · simp only [List.mem_singleton] at hw
        subst hw
        refine ⟨by simp, ?_⟩
        intro c hc
        rw [List.mem_reverse] at hc
        exact hacc c hc
      · simp
  | cons c rest ih =>
    intro acc hacc
    rw [pySplitGo]
    by_cases hc : c.isWhitespace
    · rw [if_pos hc]
      by_cases hemp : acc = []
      · rw [if_pos hemp]
        exact ih [] (by simp)
      · rw [if_neg hemp]
        intro w hw
        rcases List.mem_cons.mp hw with rfl | htl
        · refine ⟨by simpa using hemp, ?_⟩
          intro x hx
          rw [List.mem_reverse] at hx
          exact hacc x hx
        · exact ih [] (by simp) w htl
    · rw [if_neg hc]
      refine ih (c :: acc) ?_
      intro x hx
      rcases List.mem_cons.mp hx with rfl | hxl
      · simpa using hc
      · exact hacc x hxl

theorem pySplit_goodWords (s : Str) : GoodWords (pySplit s) :=
  pySplitGo_goodWords s [] (by simp)

theorem joinSpace_ne_nil (w : Str) (ws : List Str) (hw : w ≠ []) :
    joinSpace (w :: ws) ≠ [] := by
  match ws with
  | [] => rw [joinSpace]; exact hw
  | x :: ws =>
    rw [show joinSpace (w :: x :: ws) = w ++ ' ' :: joinSpace (x :: ws) from
      rfl]
    simp

theorem wellFormed_iff (v : Str) :
    WellFormedValue v ↔ ∃ ws, ws ≠ [] ∧ GoodWords ws ∧ v = joinSpace ws := by
  constructor
  · rintro ⟨hne, hnorm⟩
    refine ⟨pySplit v, ?_, pySplit_goodWords v, ?_⟩
    · intro h
      rw [normalizeTokenString, h] at hnorm
      exact hne (hnorm.symm.trans rfl)
    · rw [normalizeTokenString] at hnorm
      exact hnorm.symm
  · rintro ⟨ws, hne, hgood, rfl⟩
    obtain ⟨w, ws', rfl⟩ := List.exists_cons_of_ne_nil hne
    refine ⟨joinSpace_ne_nil w ws' (hgood w (by simp)).1, ?_⟩
    rw [normalizeTokenString, pySplit_joinSpace _ hgood]

theorem joinSpace_append (ws1 ws2 : List Str) (h1 : ws1 ≠ []) (h2 : ws2 ≠ []) :
    joinSpace (ws1 ++ ws2) = joinSpace ws1 ++ ' ' :: joinSpace ws2 := by
  match ws1 with
  | [] => exact absurd rfl h1
  | [w] =>
    obtain ⟨x, xs, rfl⟩ := List.exists_cons_of_ne_nil h2
    rfl
  | w :: x :: ws =>
    rw [show (w :: x :: ws) ++ ws2 = w :: ((x :: ws) ++ ws2) from rfl]
    obtain ⟨y, ys, hys⟩ := List.exists_cons_of_ne_nil
      (show (x :: ws) ++ ws2 ≠ [] by simp)
    rw [hys, show joinSpace (w :: y :: ys) = w ++ ' ' :: joinSpace (y :: ys)
      from rfl, ← hys]
    rw [joinSpace_append (x :: ws) ws2 (by simp) h2,
      show joinSpace (w :: x :: ws) = w ++ ' ' :: joinSpace (x :: ws) from rfl]
    simp

theorem wellFormed_concat {a b : Str} (ha : WellFormedValue a)
    (hb : WellFormedValue b) : WellFormedValue (a ++ ' ' :: b) := by
  rcases (wellFormed_iff a).mp ha with ⟨ws1, hne1, hg1, rfl⟩
  rcases (wellFormed_iff b).mp hb with ⟨ws2, hne2, hg2, rfl⟩
  refine (wellFormed_iff _).mpr ⟨ws1 ++ ws2, by simp [hne1], ?_, ?_⟩
  · intro w hw
    rcases List.mem_append.mp hw with h | h
    · exact hg1 w h
    · exact hg2 w h
  · rw [joinSpace_append ws1 ws2 hne1 hne2]

theorem joinValues_cons_cons (t x : LSToken) (xs : List LSToken) :
    joinValues (t :: x :: xs) = t.value ++ ' ' :: joinValues (x :: xs) := rfl

theorem joinValues_wellFormed : ∀ (l : List LSToken), l ≠ [] →
    (∀ t ∈ l, WellFormedValue t.value) → WellFormedValue (joinValues l) := by
  intro l
  match l with
  | [] => intro h; exact absurd rfl h
  | [t] =>
    intro _ h
    exact h t (by simp)
  | t :: x :: xs =>
    intro _ h
    rw [joinValues_cons_cons]
    refine wellFormed_concat (h t (by simp)) ?_
    exact joinValues_wellFormed (x :: xs) (by simp)
      fun y hy => h y (by simp [List.mem_cons] at hy ⊢; tauto)

theorem joinValues_append (l1 l2 : List LSToken) (h1 : l1 ≠ [])
    (h2 : l2 ≠ []) :
    joinValues (l1 ++ l2) = joinValues l1 ++ ' ' :: joinValues l2 := by
  unfold joinValues
  rw [List.map_append]
  exact joinSpace_append _ _ (by simpa using h1) (by simpa using h2)

theorem mergeLoop_ne_nil (usable : List Str) (ty : LSTokenType) (maxW : Nat)
    (t : LSToken) (rest : List LSToken) :
    mergeLoop usable ty maxW (t :: rest) ≠ [] := by
  rw [mergeLoop]
  split
  · simp
  · split
    · simp
    · split <;> simp

theorem mergeLoop_preserves_joinValues (usable : List Str)
    (ty : LSTokenType) (maxW : Nat) :
    ∀ ts : List LSToken, (∀ t ∈ ts, WellFormedValue t.value) →
      joinValues (mergeLoop usable ty maxW ts) = joinValues ts := by
  have H : ∀ n (ts : List LSToken), ts.length ≤ n →
      (∀ t ∈ ts, WellFormedValue t.value) →
      joinValues (mergeLoop usable ty maxW ts) = joinValues ts := by
    intro n
    induction n with
    | zero =>
      intro ts h _
      have : ts = [] := List.eq_nil_of_length_eq_zero (Nat.le_zero.mp h)
      subst this
      rw [mergeLoop]
    | succ n ih =>
      intro ts hlen hwf
      match ts with
      | [] => rw [mergeLoop]
      | [t] =>
        rw [mergeLoop, if_pos (by simp),
          show mergeLoop usable ty maxW [] = [] from by rw [mergeLoop]]
      | t :: u :: urest =>
        have hwfrest : ∀ x ∈ u :: urest, WellFormedValue x.value :=
          fun x hx => hwf x (by simp [List.mem_cons] at hx ⊢; tauto)
        have hlen2 : (u :: urest).length ≤ n := by
          simp only [List.length_cons] at hlen ⊢; omega
        have hkeep : joinValues (t :: mergeLoop usable ty maxW (u :: urest)) =
            joinValues (t :: u :: urest) := by
          obtain ⟨y, ys, hy⟩ := List.exists_cons_of_ne_nil
            (mergeLoop_ne_nil usable ty maxW u urest)
          rw [hy, joinValues_cons_cons, ← hy,
            ih (u :: urest) hlen2 hwfrest, joinValues_cons_cons]
        rw [mergeLoop]
        by_cases hguard : (t.type.isSome || (u :: urest).isEmpty ||
            ((u :: urest).head?.elim false fun x => x.type.isSome)) = true
        · rw [if_pos hguard]
          exact hkeep
        · rw [if_neg hguard, if_neg (by simp)]
          rcases hfm : firstMatchLen usable (t :: u :: urest) 2
              (min (min maxW ((u :: urest).length + 1))
                (2 + countLeadingNone
                  (((t :: u :: urest).drop 2).take
                    (min maxW ((u :: urest).length + 1) - 2)))) with _ | k
          · exact hkeep
          · obtain ⟨hk2, hkmax, _⟩ := firstMatchLen_bounds hfm
            simp only [List.length_cons] at hkmax
            have hAB : t :: u :: urest =
                (t :: u :: urest).take k ++ (t :: u :: urest).drop k :=
              (List.take_append_drop k (t :: u :: urest)).symm
            have hwfA : ∀ x ∈ (t :: u :: urest).take k,
                WellFormedValue x.value :=
              fun x hx => hwf x (List.mem_of_mem_take hx)
            have hAne : (t :: u :: urest).take k ≠ [] := by
              simp [List.take_eq_nil_iff]
              omega
            have hvalA : (mkLSToken (joinValues ((t :: u :: urest).take k))
                (some ty)).value = joinValues ((t :: u :: urest).take k) :=
              (joinValues_wellFormed _ hAne hwfA).2
            have hdropk : (u :: urest).drop (k - 1) =
                (t :: u :: urest).drop k := by
              obtain ⟨j, rfl⟩ : ∃ j, k = j + 2 := ⟨k - 2, by omega⟩
              rfl
            rcases hB : (t :: u :: urest).drop k with _ | ⟨b, bs⟩
            · show joinValues
                  (mkLSToken (joinValues ((t :: u :: urest).take k)) (some ty)
                    :: mergeLoop usable ty maxW ((u :: urest).drop (k - 1))) =
                joinValues (t :: u :: urest)
              rw [hdropk, hB,
                show mergeLoop usable ty maxW [] = [] from by rw [mergeLoop]]
              conv_rhs => rw [hAB, hB, List.append_nil]
              exact hvalA
            · have hwfB : ∀ x ∈ b :: bs, WellFormedValue x.value := by
                rw [← hB]
                exact fun x hx => hwf x (List.mem_of_mem_drop hx)
              have hlenB : (b :: bs).length ≤ n := by
                have := List.length_drop k (t :: u :: urest)
                rw [hB] at this
                simp only [List.length_cons] at this hlen ⊢
                omega
              have hml := ih (b :: bs) hlenB hwfB
              obtain ⟨y, ys, hy⟩ := List.exists_cons_of_ne_nil
                (mergeLoop_ne_nil usable ty maxW b bs)
              show joinValues
                  (mkLSToken (joinValues ((t :: u :: urest).take k)) (some ty)
                    :: mergeLoop usable ty maxW ((u :: urest).drop (k - 1))) =
                joinValues (t :: u :: urest)
              rw [hdropk, hB, hy, joinValues_cons_cons, ← hy, hml, hvalA]
              conv_rhs => rw [hAB, hB]
              rw [joinValues_append _ _ hAne (by simp)]
  intro ts hwf
  exact H ts.length ts (Nat.le_refl _) hwf

/-- C2 (amended): for every token sequence whose token values are non-empty
and whitespace-normalized (as `LSToken.__init__` produces from non-empty
strings), and every target list, merged token type and `max_words` value,
`merge_multiword_tokens` leaves the space-joined concatenation of all token
values unchanged: merges never drop, duplicate or reorder any word. -/
theorem c2_merge_preserves_concatenation (tokens : List LSToken)
    (target_list : List Str) (ty : LSTokenType) (max_words : Nat)
    (h : ∀ t ∈ tokens, WellFormedValue t.value) :
    joinValues (merge_multiword_tokens tokens target_list ty max_words) =
      joinValues tokens := by
  rw [merge_multiword_tokens]
  split
  · rfl
  · split
    · rfl
    · exact mergeLoop_preserves_joinValues _ ty _ tokens h

/-- Counterexample to C2 as stated: over arbitrary token sequences the
invariant fails.  A token with the empty value (`LSToken('')` is
constructible) merges with `"a"` under the target `" a"`; the merged token's
value is re-normalized by `LSToken.__init__` to `"a"`, so the space-joined
concatenation changes from `" a"` to `"a"`. -/
theorem c2_counterexample :
    ¬(joinValues (merge_multiword_tokens [⟨[], none⟩, ⟨['a'], none⟩]
        [[' ', 'a']] .state_name 3) =
      joinValues [⟨[], none⟩, ⟨['a'], none⟩]) := by
  have heval : merge_multiword_tokens [⟨[], none⟩, ⟨['a'], none⟩]
      [[' ', 'a']] .state_name 3 = [⟨['a'], some .state_name⟩] := by
    rw [merge_multiword_tokens, if_neg (by decide), if_neg (by decide)]
    rw [show (List.filter (fun x => decide (wordCountSpace x ≤
        longest_unclassified_run [⟨[], none⟩, ⟨['a'], none⟩])) [[' ', 'a']]) =
      [[' ', 'a']] from by decide]
    rw [show (min (max 3 2) (min (longest_unclassified_run
        [(⟨[], none⟩ : LSToken), ⟨['a'], none⟩]) MAX_MULTIWORD_TOKEN_LEN)) = 2
      from by decide]
    rw [mergeLoop, if_neg (by decide), if_neg (by decide)]
    rw [show firstMatchLen [[' ', 'a']] [⟨[], none⟩, ⟨['a'], none⟩] 2
        (min (min 2 ([(⟨['a'], none⟩ : LSToken)].length + 1))
          (2 + countLeadingNone
            ((([(⟨[], none⟩ : LSToken), ⟨['a'], none⟩]).drop 2).take
              (min 2 ([(⟨['a'], none⟩ : LSToken)].length + 1) - 2)))) = some 2
      from by decide]
    show mkLSToken (joinValues
        (List.take 2 [⟨[], none⟩, ⟨['a'], none⟩])) (some .state_name) ::
      mergeLoop [[' ', 'a']] .state_name 2
        (List.drop (2 - 1) [(⟨['a'], none⟩ : LSToken)]) =
      [⟨['a'], some .state_name⟩]
    rw [show (List.drop (2 - 1) [(⟨['a'], none⟩ : LSToken)]) =
      ([] : List LSToken) from rfl]
    rw [show mergeLoop [[' ', 'a']] LSTokenType.state_name 2 [] = [] from by
      rw [mergeLoop]]
    decide
  rw [heval]
  decide

/-- Witness for C2: concrete well-formed tokens `"new" "york"` merged under
the target `"new york"`. -/
theorem c2_merge_preserves_concatenation_witness :
    (∀ t ∈ [(⟨['n','e','w'], none⟩ : LSToken), ⟨['y','o','r','k'], none⟩],
      WellFormedValue t.value) ∧
    joinValues (merge_multiword_tokens
        [⟨['n','e','w'], none⟩, ⟨['y','o','r','k'], none⟩]
        [['n','e','w',' ','y','o','r','k']] .state_name 3) =
      joinValues [⟨['n','e','w'], none⟩, ⟨['y','o','r','k'], none⟩] := by
  refine ⟨?_, c2_merge_preserves_concatenation _ _ _ _ ?_⟩ <;>
    · intro t ht
      rcases List.mem_cons.mp ht with rfl | ht2
      · exact ⟨by simp, by decide⟩
      · rcases List.mem_cons.mp ht2 with rfl | ht3
        · exact ⟨by simp, by decide⟩
        · simp at ht3

/-! ## Claim C3: construction on whitespace-only input -/

/-- C3 (code bug): `LSQuery` construction does not survive a non-empty,
whitespace-only search string.  `_normalize_search_string(" ")` passes the
bad-input guard (a whitespace string is truthy), whitespace-collapsing then
yields an empty token list, and `search_string_tokens[-1]` raises an uncaught
`IndexError`, so `LSQuery(" ")` raises instead of degrading silently. -/
theorem c3_whitespace_input_raises :
    normalize_search_string (.pstr [' ']) = .error .indexError ∧
    ls_query_init (.pstr [' ']) .absent = .error .indexError :=
  ⟨rfl, rfl⟩

/-! ## Claim C5: the single-word classifier -/

theorem c5_single_token_eq (L : LSLexicons) (t : LSToken) :
    (if t.type.isSome || isMultiword t then t
     else if simple_postcode_match t.value then
      (⟨t.value, some .postcode⟩ : LSToken)
     else if t.value ∈ L.us_state_abbreviations then
      ⟨t.value, some .state_abbr⟩
     else if t.value ∈ L.us_state_names then ⟨t.value, some .state_name⟩
     else if t.value ∈ L.library_keywords then
      ⟨t.value, some .library_keyword⟩
     else t) = spec_single_word_result L t := by
  rw [spec_single_word_result, spec_single_word_type]
  by_cases h1 : t.type.isSome = true
  · rw [if_pos (show (t.type.isSome || isMultiword t) = true by simp [h1]),
      if_neg (show ¬(t.type = none ∧ ¬isMultiword t = true) from
        fun hc => by rw [hc.1] at h1; simp at h1)]
  · have h1' : t.type = none := by
      cases h : t.type with
      | none => rfl
      | some v => rw [h] at h1; simp at h1
    by_cases h2 : isMultiword t = true
    · rw [if_pos (show (t.type.isSome || isMultiword t) = true by simp [h2]),
        if_neg (show ¬(t.type = none ∧ ¬isMultiword t = true) from
          fun hc => hc.2 h2)]
    · rw [if_neg (show ¬((t.type.isSome || isMultiword t) = true) by
          simp [h1', h2]),
        if_pos (show t.type = none ∧ ¬isMultiword t = true from
          ⟨h1', by simpa using h2⟩)]
      by_cases hpost : simple_postcode_match t.value = true
      · rw [if_pos hpost,
          if_pos (show (t.value.all Char.isDigit &&
              (t.value.length = 5 || t.value.length = 9)) = true by
            rw [Bool.and_comm]; exact hpost)]
      · rw [if_neg hpost,
          if_neg (show ¬((t.value.all Char.isDigit &&
              (t.value.length = 5 || t.value.length = 9)) = true) by
            rw [Bool.and_comm]; exact hpost)]
        by_cases habbr : t.value ∈ L.us_state_abbreviations
        · rw [if_pos habbr, if_pos habbr]
        · rw [if_neg habbr, if_neg habbr]
          by_cases hname : t.value ∈ L.us_state_names
          · rw [if_pos hname, if_pos hname]
          · rw [if_neg hname, if_neg hname]
            by_cases hkw : t.value ∈ L.library_keywords
            · rw [if_pos hkw, if_pos hkw]
            · rw [if_neg hkw, if_neg hkw]

/-- C5: `LSSinglewordTokenClassifier.classify` acts on each token exactly as
claimed — an unclassified single-word token receives the first matching type
in the fixed order POSTCODE (value of exactly 5 or exactly 9 digits, so 4-,
6- or 10-digit values do not match), then STATE_ABBR, then STATE_NAME, then
LIBRARY_KEYWORD, with the value unchanged; already-classified tokens and
multi-word tokens are untouched. -/
theorem c5_singleword_classifier (L : LSLexicons) (tokens : List LSToken) :
    lssingleword_classify L tokens =
      tokens.map (spec_single_word_result L) := by
  rw [lssingleword_classify]
  split
  case isTrue h =>
    have hfix : ∀ t ∈ tokens, spec_single_word_result L t = t := by
      intro t ht
      have hne := (all_classified_iff_no_none tokens).mp h t ht
      rw [spec_single_word_result, if_neg]
      intro hcond
      exact hne hcond.1
    calc tokens = tokens.map id := (List.map_id tokens).symm
    _ = tokens.map (spec_single_word_result L) :=
      List.map_congr_left fun t ht => (hfix t ht).symm
  case isFalse h =>
    exact List.map_congr_left fun t _ => c5_single_token_eq L t

/-! ## Claim C6: tokenization of "new york" -/

/-- C6 (code bug): constructing `LSQuery("new york")` does not produce the
single `STATE_NAME` token the spec describes.  `_tokenize` initializes
`tokens = []` and, in the multi-word branch, passes that still-empty list —
not `words` — to the stub `_classify_tokens_by_pattern`, so the constructed
query's token sequence is empty and the state-name classifier never runs. -/
theorem c6_new_york_tokens_empty :
    ls_query_init (.pstr ['n','e','w',' ','y','o','r','k']) .absent = .ok
      { raw_string := ['n','e','w',' ','y','o','r','k'],
        normalized_string := ['n','e','w',' ','y','o','r','k'],
        cleaned_string := ['n','e','w',' ','y','o','r','k'],
        tokens := [],
        location := none,
        search_type := none } := by
  rfl

/-! ## Claim C7: search type of "11212" -/

/-- C7 (code bug): for the input "11212" with no location the constructed
query's search type is `None`, not `GEOTARGET_SINGLE`, because
`_search_type` is a stub that always returns `None` (contradicting its own
docstring and the skipped `test__search_type`); the single token also stays
untyped, since `__init__` never runs the single-word classifier. -/
theorem c7_postcode_search_type_none :
    ls_query_init (.pstr ['1','1','2','1','2']) .absent = .ok
      { raw_string := ['1','1','2','1','2'],
        normalized_string := ['1','1','2','1','2'],
        cleaned_string := ['1','1','2','1','2'],
        tokens := [⟨['1','1','2','1','2'], none⟩],
        location := none,
        search_type := none } := by
  rfl

/-! ## Claim C8: boolean coercion of a constructed query -/

/-- C8: for every successfully constructed query, `bool(query)` is true iff
the original input was a non-empty string; every non-string input (None,
numeric, list, dict, tuple) and the empty string give a falsy query. -/
theorem c8_bool_iff_nonempty_string (raw : PyInput) (loc : LocationInput)
    (q : LSQuery) (h : ls_query_init raw loc = .ok q) :
    ls_query_bool q = true ↔ ∃ s, raw = .pstr s ∧ s ≠ [] := by
  cases raw with
  | nonString =>
    rw [ls_query_init] at h
    rcases hn : normalize_search_string .nonString with e | nn <;> rw [hn] at h
    · simp at h
    · simp only [Except.ok.injEq] at h
      subst h
      simp [ls_query_bool]
  | pstr s =>
    rw [ls_query_init] at h
    rcases hn : normalize_search_string (.pstr s) with e | nn <;> rw [hn] at h
    · simp at h
    · simp only [Except.ok.injEq] at h
      subst h
      rw [ls_query_bool]
      by_cases hs : s.take (MAX_SEARCH_STRING_LEN * 3) = []
      · rw [if_pos hs]
        rw [List.take_eq_nil_iff] at hs
        simp only [Bool.false_eq_true, false_iff]
        rintro ⟨s', hs', hne⟩
        cases hs'
        rcases hs with h0 | h0
        · simp [MAX_SEARCH_STRING_LEN] at h0
        · exact hne h0
      · rw [if_neg hs]
        simp only [true_iff]
        refine ⟨s, rfl, ?_⟩
        intro h0
        subst h0
        simp at hs

/-- Witness for C8: the one-character string "a" yields a truthy query. -/
theorem c8_bool_iff_nonempty_string_witness :
    ls_query_init (.pstr ['a']) .absent =
      .ok ⟨['a'], ['a'], ['a'], [⟨['a'], none⟩], none, none⟩ ∧
    (ls_query_bool ⟨['a'], ['a'], ['a'], [⟨['a'], none⟩], none, none⟩ = true ↔
      ∃ s, PyInput.pstr ['a'] = .pstr s ∧ s ≠ []) :=
  ⟨rfl, c8_bool_iff_nonempty_string _ .absent _ rfl⟩

/-! ## Claim C9: the fuzzy-match clause -/

/-- Counterexample to C9 as stated: the clause computes the edit distance of
the LOWERCASED field to the token, not of the raw field value.  For the field
"LIBRARYX" and token "library" the clause matches (levenshtein("libraryx",
"library") = 1 ≤ 2) although the raw edit distance is 8 and there is no
case-insensitive exact match, so the claimed two-sided characterization
fails. -/
theorem c9_counterexample :
    ¬((evalSqlBool "LIBRARYX".toList "library".toList fuzzy_match_clause
        = true) ↔
      (lowerStr "LIBRARYX".toList = lowerStr "library".toList ∨
        (6 ≤ "LIBRARYX".toList.length ∧
          levenshtein Levenshtein.defaultCost "LIBRARYX".toList
            "library".toList ≤ 2))) := by
  decide

/-- C9 (amended): the clause built by `fuzzy_match_clause` matches a field
against a token iff either (a) they are equal case-insensitively, or (b) the
field is at least 6 characters long and the Levenshtein edit distance of the
lowercased field to the token is at most 2; in particular a field shorter
than 6 characters matches only by case-insensitive equality. -/
theorem c9_fuzzy_match_semantics (field value : Str) :
    ((evalSqlBool field value fuzzy_match_clause = true) ↔
      (lowerStr field = lowerStr value ∨
        (6 ≤ field.length ∧
          levenshtein Levenshtein.defaultCost (lowerStr field) value ≤ 2))) ∧
    (field.length < 6 →
      ((evalSqlBool field value fuzzy_match_clause = true) ↔
        lowerStr field = lowerStr value)) := by
  constructor
  · simp only [fuzzy_match_clause, evalSqlBool, evalSqlNum, evalSqlStr,
      Bool.or_eq_true, Bool.and_eq_true, decide_eq_true_eq, ge_iff_le]
    tauto
  · intro hshort
    simp only [fuzzy_match_clause, evalSqlBool, evalSqlNum, evalSqlStr,
      Bool.or_eq_true, Bool.and_eq_true, decide_eq_true_eq, ge_iff_le]
    constructor
    · rintro (⟨h6, _⟩ | h)
      · omega
      · exact h
    · intro h
      exact Or.inr h

/-- Witness for C9: a 5-character field requires the exact case-insensitive
match. -/
theorem c9_fuzzy_match_semantics_witness :
    "LIBRA".toList.length < 6 ∧
    ((evalSqlBool "LIBRA".toList "libra".toList fuzzy_match_clause = true) ↔
      lowerStr "LIBRA".toList = lowerStr "libra".toList) :=
  ⟨by decide, (c9_fuzzy_match_semantics "LIBRA".toList "libra".toList).2
    (by decide)⟩

/-! ## Claim C1: the merge is the greedy shortest-at-each-position scan -/

theorem pySplitSpace_no_space (v : Str) (h : ∀ c ∈ v, ¬c = ' ') :
    pySplitSpace v = [v] := by
  induction v with
  | nil => rfl
  | cons c v ih =>
    rw [pySplitSpace, if_neg (h c (by simp)),
      ih fun x hx => h x (by simp [hx])]

theorem pySplitSpace_append_space (v : Str) (h : ∀ c ∈ v, ¬c = ' ')
    (s : Str) : pySplitSpace (v ++ ' ' :: s) = v :: pySplitSpace s := by
  induction v with
  | nil =>
    rw [List.nil_append, pySplitSpace, if_pos rfl]
  | cons c v ih =>
    rw [List.cons_append, pySplitSpace, if_neg (h c (by simp)),
      ih fun x hx => h x (by simp [hx])]

theorem wordCountSpace_joinValues : ∀ ts : List LSToken, ts ≠ [] →
    (∀ t ∈ ts, SpaceFreeValue t.value) →
    wordCountSpace (joinValues ts) = ts.length := by
  intro ts
  match ts with
  | [] => intro h; exact absurd rfl h
  | [t] =>
    intro _ h
    show (pySplitSpace t.value).length = 1
    rw [pySplitSpace_no_space t.value (h t (by simp))]
    rfl
  | t :: x :: xs =>
    intro _ h
    rw [wordCountSpace, joinValues_cons_cons,
      pySplitSpace_append_space t.value (h t (by simp))]
    have := wordCountSpace_joinValues (x :: xs) (by simp)
      fun y hy => h y (by simp [List.mem_cons] at hy ⊢; tauto)
    rw [wordCountSpace] at this
    simp only [List.length_cons, this]

theorem find_congr {α : Type} {p q : α → Bool} :
    ∀ l : List α, (∀ a ∈ l, p a = q a) → l.find? p = l.find? q := by
  intro l
  induction l with
  | nil => intro _; rfl
  | cons a l ih =>
    intro h
    rw [List.find?_cons, List.find?_cons, h a (by simp)]
    cases hq : q a
    · exact ih fun x hx => h x (by simp [hx])
    · rfl

theorem suffix_leading_le_longest {ts tokens : List LSToken}
    (h : ts.IsSuffix tokens) :
    countLeadingNone ts ≤ longest_unclassified_run tokens := by
  obtain ⟨pre, rfl⟩ := h
  have hrun : IsNoneRun (pre ++ ts) (countLeadingNone ts) := by
    refine ⟨pre, ts.takeWhile fun t => t.type = none,
      ts.dropWhile fun t => t.type = none, by simp, ?_, rfl⟩
    intro t ht
    simpa using List.mem_takeWhile_imp ht
  rw [longest_run_eq_maxRunAux]
  exact isNoneRun_le_maxRunAux hrun 0

/-- If no candidate position of any suffix admits a first matching length,
the greedy scan is the identity. -/
theorem specGreedyScan_id (targets : List Str) (ty : LSTokenType) (W : Nat) :
    ∀ ts : List LSToken,
      (∀ (t u : LSToken) (l : List LSToken), (t :: u :: l).IsSuffix ts →
        t.type = none → u.type = none →
        specFirstLen targets (min W (countLeadingNone (t :: u :: l)))
          (t :: u :: l) = none) →
      specGreedyScan targets ty W ts = ts := by
  intro ts
  induction ts with
  | nil => intro _; rw [specGreedyScan]
  | cons t rest ih =>
    intro h
    have htail := ih fun a b l hsuf ha hb =>
      h a b l (hsuf.trans (List.suffix_cons t rest)) ha hb
    rw [specGreedyScan]
    match rest with
    | [] =>
      rw [if_neg (by simp [show specCandidateStart [t] = false from rfl])]
      rw [show specGreedyScan targets ty W [] = [] from by rw [specGreedyScan]]
    | u :: l =>
      by_cases hcand : specCandidateStart (t :: u :: l) = true
      · rw [if_pos hcand]
        rw [specCandidateStart] at hcand
        simp only [Bool.and_eq_true, decide_eq_true_eq] at hcand
        rw [h t u l (List.suffix_refl _) hcand.1 hcand.2]
        rw [htail]
      · rw [if_neg hcand, htail]

theorem countLeadingNone_le_length (l : List LSToken) :
    countLeadingNone l ≤ l.length :=
  ((List.takeWhile_prefix _).sublist).length_le

/-- At a candidate start the code's `loop_local_max_words` bound equals the
spec's: the scan width capped by the local run of consecutive unclassified
tokens from this position. -/
theorem candidate_width_eq (W : Nat) (hW : 2 ≤ W) (t u : LSToken)
    (urest : List LSToken) (htt : t.type = none) (hut : u.type = none) :
    min (min W ((u :: urest).length + 1))
      (2 + countLeadingNone
        (((t :: u :: urest).drop 2).take (min W ((u :: urest).length + 1) - 2)))
      = min W (countLeadingNone (t :: u :: urest)) := by
  rw [show (t :: u :: urest).drop 2 = urest from rfl]
  have e1 := countLeadingNone_take (min W ((u :: urest).length + 1) - 2) urest
  have e2 := countLeadingNone_cons_cons urest htt hut
  have e3 : countLeadingNone urest ≤ urest.length :=
    countLeadingNone_le_length urest
  simp only [List.length_cons] at e1 e2 ⊢
  omega

/-- With space-free token values, a compound of `i` whole tokens has word
count `i`, so it lies in the narrowed target list iff it lies in the full
target list (its word count never exceeds the longest unclassified run). -/
theorem compound_mem_usable_iff (targets : List Str)
    (tokens ts : List LSToken) (hsuf : ts.IsSuffix tokens)
    (hsf : ∀ t ∈ tokens, SpaceFreeValue t.value) (i : Nat) (hi1 : 1 ≤ i)
    (hilen : i ≤ ts.length) (hile : i ≤ countLeadingNone ts) :
    (joinValues (ts.take i) ∈ targets.filter fun x =>
        wordCountSpace x ≤ longest_unclassified_run tokens) ↔
      joinValues (ts.take i) ∈ targets := by
  have hsfts : ∀ t ∈ ts.take i, SpaceFreeValue t.value :=
    fun t ht => hsf t (hsuf.subset (List.mem_of_mem_take ht))
  have htne : ts.take i ≠ [] := by
    intro hcontra
    rw [List.take_eq_nil_iff] at hcontra
    rcases hcontra with h0 | h0
    · omega
    · rw [h0] at hilen
      simp at hilen
      omega
  have hwc : wordCountSpace (joinValues (ts.take i)) = i := by
    rw [wordCountSpace_joinValues _ htne hsfts, List.length_take]
    omega
  rw [List.mem_filter]
  constructor
  · exact fun h => h.1
  · intro h
    refine ⟨h, ?_⟩
    simp only [decide_eq_true_eq, hwc]
    exact Nat.le_trans hile (suffix_leading_le_longest hsuf)

/-- The transcription of the source loop and the spec's greedy scan agree on
every suffix of a space-free token list, at any scan width at least 2. -/
theorem mergeLoop_eq_specGreedyScan (targets : List Str)
    (tokens : List LSToken) (ty : LSTokenType) (W : Nat) (hW : 2 ≤ W)
    (hsf : ∀ t ∈ tokens, SpaceFreeValue t.value) :
    ∀ ts : List LSToken, ts.IsSuffix tokens →
      mergeLoop (targets.filter fun x =>
          wordCountSpace x ≤ longest_unclassified_run tokens) ty W ts =
        specGreedyScan targets ty W ts := by
  have H : ∀ n (ts : List LSToken), ts.length ≤ n → ts.IsSuffix tokens →
      mergeLoop (targets.filter fun x =>
          wordCountSpace x ≤ longest_unclassified_run tokens) ty W ts =
        specGreedyScan targets ty W ts := by
    intro n
    induction n with
    | zero =>
      intro ts h _
      have : ts = [] := List.eq_nil_of_length_eq_zero (Nat.le_zero.mp h)
      subst this
      rw [mergeLoop, specGreedyScan]
    | succ n ih =>
      intro ts hlen hsuf
      match ts with
      | [] => rw [mergeLoop, specGreedyScan]
      | [t] =>
        rw [mergeLoop, if_pos (by simp), specGreedyScan,
          if_neg (by simp [show specCandidateStart [t] = false from rfl]),
          show mergeLoop (targets.filter fun x =>
            wordCountSpace x ≤ longest_unclassified_run tokens) ty W [] = []
            from by rw [mergeLoop],
          show specGreedyScan targets ty W [] = [] from by rw [specGreedyScan]]
      | t :: u :: urest =>
        have hsuf2 : (u :: urest).IsSuffix tokens :=
          (List.suffix_cons t (u :: urest)).trans hsuf
        have hlen2 : (u :: urest).length ≤ n := by
          simp only [List.length_cons] at hlen ⊢
          omega
        rw [mergeLoop, specGreedyScan]
        by_cases htt : t.type = none
        rotate_left
        · have htt' : t.type.isSome = true := Option.ne_none_iff_isSome.mp htt
          rw [if_pos (show (t.type.isSome || (u :: urest).isEmpty ||
              ((u :: urest).head?.elim false fun x => x.type.isSome)) = true
              by simp [htt']),
            if_neg (show ¬(specCandidateStart (t :: u :: urest) = true)
              by simp [specCandidateStart, htt])]
          rw [ih (u :: urest) hlen2 hsuf2]
        by_cases hut : u.type = none
        rotate_left
        · have hut' : u.type.isSome = true := Option.ne_none_iff_isSome.mp hut
          rw [if_pos (show (t.type.isSome || (u :: urest).isEmpty ||
              ((u :: urest).head?.elim false fun x => x.type.isSome)) = true
              by simp [hut']),
            if_neg (show ¬(specCandidateStart (t :: u :: urest) = true)
              by simp [specCandidateStart, hut])]
          rw [ih (u :: urest) hlen2 hsuf2]
        · rw [if_neg (show ¬((t.type.isSome || (u :: urest).isEmpty ||
              ((u :: urest).head?.elim false fun x => x.type.isSome)) = true)
              by simp [htt, hut]),
            if_neg (show ¬((u :: urest).length + 1 < 2) by simp),
            if_pos (show specCandidateStart (t :: u :: urest) = true
              by simp [specCandidateStart, htt, hut])]
          have hlead : countLeadingNone (t :: u :: urest) =
              2 + countLeadingNone urest :=
            countLeadingNone_cons_cons urest htt hut
          have hdisc : firstMatchLen (targets.filter fun x =>
                wordCountSpace x ≤ longest_unclassified_run tokens)
                (t :: u :: urest) 2
                (min (min W ((u :: urest).length + 1))
                  (2 + countLeadingNone
                    (((t :: u :: urest).drop 2).take
                      (min W ((u :: urest).length + 1) - 2)))) =
              specFirstLen targets
                (min W (countLeadingNone (t :: u :: urest)))
                (t :: u :: urest) := by
            rw [firstMatchLen, candidate_width_eq W hW t u urest htt hut,
              specFirstLen,
              show min W (countLeadingNone (t :: u :: urest)) + 1 - 2 =
                min W (countLeadingNone (t :: u :: urest)) - 1 from by omega]
            apply find_congr
            intro i hi
            rw [List.mem_range'_1] at hi
            have hiK : i ≤ min W (countLeadingNone (t :: u :: urest)) := by
              omega
            have hile : i ≤ countLeadingNone (t :: u :: urest) :=
              Nat.le_trans hiK (Nat.min_le_right _ _)
            have hilen : i ≤ (t :: u :: urest).length :=
              Nat.le_trans hile (countLeadingNone_le_length _)
            exact decide_eq_decide.mpr
              (compound_mem_usable_iff targets tokens (t :: u :: urest) hsuf
                hsf i (by omega) hilen hile)
          rw [hdisc]
          rcases hfm : specFirstLen targets
              (min W (countLeadingNone (t :: u :: urest)))
              (t :: u :: urest) with _ | k
          · show t :: mergeLoop (targets.filter fun x =>
                wordCountSpace x ≤ longest_unclassified_run tokens) ty W
                (u :: urest) =
              t :: specGreedyScan targets ty W (u :: urest)
            rw [ih (u :: urest) hlen2 hsuf2]
          · show mkLSToken (joinValues ((t :: u :: urest).take k)) (some ty) ::
                mergeLoop (targets.filter fun x =>
                  wordCountSpace x ≤ longest_unclassified_run tokens) ty W
                  ((u :: urest).drop (k - 1)) =
              mkLSToken (joinValues ((t :: u :: urest).take k)) (some ty) ::
                specGreedyScan targets ty W ((u :: urest).drop (k - 1))
            have hsuf3 : ((u :: urest).drop (k - 1)).IsSuffix tokens :=
              (List.drop_suffix (k - 1) (u :: urest)).trans hsuf2
            have hlen3 : ((u :: urest).drop (k - 1)).length ≤ n := by
              have := List.length_drop (k - 1) (u :: urest)
              simp only [List.length_cons] at this hlen2 ⊢
              omega
            rw [ih _ hlen3 hsuf3]
  intro ts hsuf
  exact H ts.length ts (Nat.le_refl _) hsuf

/-- C1: `merge_multiword_tokens` (for sequences of single-word tokens, as
tokenization produces) is exactly the greedy left-to-right,
shortest-at-each-position scan the spec describes: at each candidate start
(an unclassified token followed by an unclassified token) compound lengths
2, 3, ... up to the effective scan width (further capped by the local
unclassified run) are tried in order, the first length whose space-joined
compound lies in the target set wins, the consumed tokens are replaced by
one token of the merged type and the scan advances past them; a later start
with a longer match is not preempted. -/
theorem c1_merge_is_greedy_shortest_scan (tokens : List LSToken)
    (target_list : List Str) (ty : LSTokenType) (max_words : Nat)
    (hsf : ∀ t ∈ tokens, SpaceFreeValue t.value) :
    merge_multiword_tokens tokens target_list ty max_words =
      spec_greedy_merge tokens target_list ty max_words := by
  rw [merge_multiword_tokens, spec_greedy_merge]
  by_cases hR : longest_unclassified_run tokens ≤ 1
  · have hid := specGreedyScan_id target_list ty
      (spec_effective_scan_width tokens max_words) tokens ?_
    · rw [if_pos (by simp [hR]), hid]
    · intro t u l hsuf ht hu
      exfalso
      obtain ⟨pre, hpre⟩ := hsuf
      have hrun : IsNoneRun tokens 2 := by
        refine ⟨pre, [t, u], l, by rw [← hpre]; simp, ?_, rfl⟩
        intro x hx
        rcases List.mem_cons.mp hx with rfl | hx2
        · exact ht
        · rcases List.mem_cons.mp hx2 with rfl | hx3
          · exact hu
          · simp at hx3
      have := isNoneRun_le_maxRunAux hrun 0
      rw [← longest_run_eq_maxRunAux] at this
      omega
  · have hac : ¬(all_classified tokens = true) := by
      intro h
      rw [all_classified_iff_longest_zero tokens] at h
      omega
    rw [if_neg (show ¬((all_classified tokens ||
        longest_unclassified_run tokens ≤ 1) = true) by
      simp only [Bool.or_eq_true, decide_eq_true_eq]
      rintro (h | h)
      · exact hac h
      · exact hR h)]
    by_cases hemp : (target_list.filter fun x =>
        wordCountSpace x ≤ longest_unclassified_run tokens).isEmpty = true
    · have hid := specGreedyScan_id target_list ty
        (spec_effective_scan_width tokens max_words) tokens ?_
      · rw [if_pos hemp, hid]
      · intro t u l hsuf ht hu
        rw [specFirstLen, List.find?_eq_none]
        intro i hi
        rw [List.mem_range'_1] at hi
        simp only [decide_eq_true_eq]
        intro hmem
        have hile : i ≤ countLeadingNone (t :: u :: l) := by
          have : i ≤ min (spec_effective_scan_width tokens max_words)
              (countLeadingNone (t :: u :: l)) := by omega
          exact Nat.le_trans this (Nat.min_le_right _ _)
        have hilen : i ≤ (t :: u :: l).length :=
          Nat.le_trans hile (countLeadingNone_le_length _)
        have hin := (compound_mem_usable_iff target_list tokens (t :: u :: l)
          hsuf hsf i (by omega) hilen hile).mpr hmem
        rw [List.isEmpty_iff] at hemp
        rw [hemp] at hin
        simp at hin
    · rw [if_neg hemp]
      have hW2 : 2 ≤ min (longest_unclassified_run tokens)
          MAX_MULTIWORD_TOKEN_LEN := by
        rw [MAX_MULTIWORD_TOKEN_LEN]
        omega
      have hWeq : min (max max_words 2)
          (min (longest_unclassified_run tokens) MAX_MULTIWORD_TOKEN_LEN) =
          spec_effective_scan_width tokens max_words := by
        rw [spec_effective_scan_width]
        omega
      rw [hWeq]
      exact mergeLoop_eq_specGreedyScan target_list tokens ty _
        (by rw [spec_effective_scan_width]; omega) hsf tokens
        (List.suffix_refl tokens)

/-- Witness for C1: the docstring example — under the targets
`"alpha bravo"` and `"alpha bravo charlie"`, the run `alpha bravo charlie`
merges as the shorter `"alpha bravo"` plus a lone `"charlie"`. -/
theorem c1_merge_is_greedy_shortest_scan_witness :
    (∀ t ∈ [(⟨['a','l','p','h','a'], none⟩ : LSToken),
      ⟨['b','r','a','v','o'], none⟩, ⟨['c','h','a','r','l','i','e'], none⟩],
      SpaceFreeValue t.value) ∧
    merge_multiword_tokens
        [⟨['a','l','p','h','a'], none⟩, ⟨['b','r','a','v','o'], none⟩,
         ⟨['c','h','a','r','l','i','e'], none⟩]
        ["alpha bravo".toList, "alpha bravo charlie".toList]
        .library_name 5 =
      spec_greedy_merge
        [⟨['a','l','p','h','a'], none⟩, ⟨['b','r','a','v','o'], none⟩,
         ⟨['c','h','a','r','l','i','e'], none⟩]
        ["alpha bravo".toList, "alpha bravo charlie".toList]
        .library_name 5 :=
  ⟨by decide, c1_merge_is_greedy_shortest_scan _ _ _ _ (by decide)⟩

end LibSearch
